import Mathlib

/-!
Verification of the KodBro streaming/transport layer.

This file gives a shallow embedding of the TypeScript sources:
  - `TerminalService` (line reassembly, command history, one-shot
    response handling, output log) from the terminal service file;
  - `AgentService.streamSessionLogs` (the SSE event-stream reader with
    its frame accumulator, done handling and cooperative cancellation);
  - the `AgentPage` stream-subscription handler (the session log
    aggregator).

Text is modelled as `List Char`; the JavaScript `String.split` on the
line terminator, `startsWith`, `slice`, `trim` and `endsWith` operations
are re-implemented on that representation.  The external `JSON.parse`
call is an oracle parameter `parseJson : Str → Option AgentLogEvent`
(the code casts the parsed value and only inspects its `type` field).
-/

set_option maxHeartbeats 1000000

namespace KodBro

/-- Text, as a list of characters. -/
abbrev Str := List Char

/-- The `TerminalLine.type` union from the terminal service. -/
inductive LineType where
  | command
  | output
  | error
  | prompt
deriving DecidableEq

/-- One entry of the terminal output log. -/
structure TerminalLine where
  type : LineType
  text : Str
deriving DecidableEq

/-- `appendOutput` of `TerminalService`: pushes a line only when the
text is truthy, i.e. non-empty. -/
def appendOutput (out : List TerminalLine) (ty : LineType) (text : Str) :
    List TerminalLine :=
  if text = [] then out else out ++ [⟨ty, text⟩]

/-- JavaScript `s.split('\n')`: always returns a non-empty list of
pieces; the separators are removed. -/
def splitNl : Str → List Str
  | [] => [[]]
  | c :: rest =>
    let r := splitNl rest
    if c = '\n' then [] :: r
    else (c :: r.headI) :: r.tail

/-- The completed lines of a text: all pieces of the newline split
except the final one. -/
def completedOf (s : Str) : List Str := (splitNl s).dropLast

/-- The trailing remainder of a text: the final piece of the newline
split (empty when the text ends in a terminator). -/
def remainderOf (s : Str) : Str := (splitNl s).getLastD []

/-- JavaScript `s.endsWith('\n')` (false on the empty string). -/
def endsWithNl (s : Str) : Bool :=
  match s.getLast? with
  | some c => c = '\n'
  | none => false

/-- JavaScript `s.replace(/\r$/, '')`. -/
def stripCrEnd (s : Str) : Str :=
  match s.getLast? with
  | some c => if c = '\r' then s.dropLast else s
  | none => s

/-- The state touched by `TerminalService.flushOutput`: the partial-line
buffer and the output log. -/
structure FlushState where
  outputBuffer : Str
  output : List TerminalLine
deriving DecidableEq

/-- `TerminalService.flushOutput`, verbatim: append the chunk to the
buffer, split on the terminator, pop the last piece back into the
buffer and emit the rest; then the two trailing guards of the source. -/
def flushOutput (st : FlushState) (chunk : Str) : FlushState :=
  let buf0 := st.outputBuffer ++ chunk
  let lines := splitNl buf0
  let st1 : FlushState :=
    if 1 < lines.length then
      { outputBuffer := lines.getLastD [],
        output := lines.dropLast.foldl
          (fun o l => appendOutput o LineType.output l) st.output }
    else { outputBuffer := buf0, output := st.output }
  if st1.outputBuffer ≠ [] ∧ endsWithNl chunk = false then st1
  else if st1.outputBuffer ≠ [] then
    { outputBuffer := [],
      output := appendOutput st1.output LineType.output (stripCrEnd st1.outputBuffer) }
  else st1

/-- The non-empty pieces among a list of split lines (the ones
`appendOutput` actually keeps). -/
def nonEmptyLines (ls : List Str) : List Str := ls.filter (fun l => !l.isEmpty)

/-- Tag each line with an output-log kind. -/
def toOutputLines (ty : LineType) (ls : List Str) : List TerminalLine :=
  ls.map (fun l => ⟨ty, l⟩)

section SplitLemmas

theorem splitNl_ne_nil (s : Str) : splitNl s ≠ [] := by
  cases s with
  | nil => simp [splitNl]
  | cons c rest =>
    simp only [splitNl]
    split <;> simp

theorem splitNl_cons_nl (s : Str) : splitNl ('\n' :: s) = [] :: splitNl s := by
  simp [splitNl]

theorem splitNl_cons_other (c : Char) (hc : c ≠ '\n') (s : Str) :
    splitNl (c :: s) = (c :: (splitNl s).headI) :: (splitNl s).tail := by
  simp [splitNl, hc]

theorem getLastD_congr {α : Type} (l : List α) (d e : α) (h : l ≠ []) :
    l.getLastD d = l.getLastD e := by
  rw [List.getLastD_eq_getLast?, List.getLastD_eq_getLast?,
    List.getLast?_eq_getLast l h]
  rfl

theorem dropLast_append_getLastD {α : Type} (l : List α) (d : α) (h : l ≠ []) :
    l.dropLast ++ [l.getLastD d] = l := by
  induction l generalizing d with
  | nil => exact absurd rfl h
  | cons a t ih =>
    cases t with
    | nil => rfl
    | cons b t2 =>
      have hstep := ih a (by simp)
      rw [List.getLastD_cons] at hstep
      simp only [List.getLastD_cons, List.dropLast_cons₂, List.cons_append]
      rw [hstep]

theorem splitNl_eq_parts (s : Str) :
    splitNl s = completedOf s ++ [remainderOf s] :=
  (dropLast_append_getLastD (splitNl s) [] (splitNl_ne_nil s)).symm

theorem completedOf_nil : completedOf [] = [] := rfl

theorem remainderOf_nil : remainderOf [] = [] := rfl

theorem completedOf_cons_nl (s : Str) :
    completedOf ('\n' :: s) = [] :: completedOf s := by
  have h := splitNl_ne_nil s
  simp only [completedOf, splitNl_cons_nl]
  cases hs : splitNl s with
  | nil => exact absurd hs h
  | cons x t => simp

theorem remainderOf_cons_nl (s : Str) :
    remainderOf ('\n' :: s) = remainderOf s := by
  simp only [remainderOf, splitNl_cons_nl]
  cases hs : splitNl s with
  | nil => exact absurd hs (splitNl_ne_nil s)
  | cons x t => simp [List.getLastD_cons]

theorem completedOf_cons (c : Char) (hc : c ≠ '\n') (s : Str) :
    completedOf (c :: s) = (completedOf s).modifyHead (fun h => c :: h) := by
  simp only [completedOf, splitNl_cons_other c hc]
  cases hs : splitNl s with
  | nil => exact absurd hs (splitNl_ne_nil s)
  | cons x t =>
    cases t with
    | nil => simp [List.modifyHead]
    | cons y t2 => simp [List.modifyHead, List.dropLast_cons₂]

theorem remainderOf_cons (c : Char) (hc : c ≠ '\n') (s : Str) :
    remainderOf (c :: s) =
      if completedOf s = [] then c :: remainderOf s else remainderOf s := by
  simp only [remainderOf, completedOf, splitNl_cons_other c hc]
  cases hs : splitNl s with
  | nil => exact absurd hs (splitNl_ne_nil s)
  | cons x t =>
    cases t with
    | nil => simp [List.getLastD_cons]
    | cons y t2 =>
      simp only [List.headI_cons, List.tail_cons, List.getLastD_cons,
        List.dropLast_cons₂]
      rw [if_neg (by simp)]

theorem modifyHead_eq_nil_iff {α : Type} (f : α → α) (l : List α) :
    l.modifyHead f = [] ↔ l = [] := by
  cases l <;> simp [List.modifyHead]

theorem splitNl_parts_append (a b : Str) :
    completedOf (a ++ b) =
      completedOf a ++ (completedOf b).modifyHead (fun h => remainderOf a ++ h)
    ∧ remainderOf (a ++ b) =
      (if completedOf b = [] then remainderOf a ++ remainderOf b
       else remainderOf b) := by
  induction a with
  | nil =>
    refine ⟨?_, ?_⟩
    · rw [List.nil_append, completedOf_nil, List.nil_append, remainderOf_nil]
      cases hb : completedOf b <;> simp [List.modifyHead]
    · rw [List.nil_append, remainderOf_nil]
      cases hb : completedOf b <;> simp
  | cons c a ih =>
    by_cases hc : c = '\n'
    · subst hc
      refine ⟨?_, ?_⟩
      · simp only [List.cons_append, completedOf_cons_nl, remainderOf_cons_nl,
          ih.1, List.cons_append]
      · simp only [List.cons_append, remainderOf_cons_nl, ih.2]
    · refine ⟨?_, ?_⟩
      · simp only [List.cons_append, completedOf_cons c hc, remainderOf_cons c hc,
          ih.1]
        cases ha : completedOf a with
        | nil =>
          cases hb : completedOf b with
          | nil => simp [List.modifyHead]
          | cons x t => simp [List.modifyHead]
        | cons x t => simp [List.modifyHead]
      · simp only [List.cons_append, remainderOf_cons c hc, ih.1, ih.2]
        cases ha : completedOf a with
        | nil =>
          cases hb : completedOf b with
          | nil => simp [List.modifyHead]
          | cons x t => simp [modifyHead_eq_nil_iff]
        | cons x t =>
          cases hb : completedOf b with
          | nil => simp
          | cons y t2 => simp

theorem no_nl_remainder (s : Str) (h : '\n' ∉ s) :
    completedOf s = [] ∧ remainderOf s = s := by
  induction s with
  | nil => exact ⟨rfl, rfl⟩
  | cons c s ih =>
    have hc : c ≠ '\n' := fun hcc => h (hcc ▸ List.mem_cons_self c s)
    have hs : '\n' ∉ s := fun hm => h (List.mem_cons_of_mem c hm)
    have ⟨h1, h2⟩ := ih hs
    refine ⟨?_, ?_⟩
    · rw [completedOf_cons c hc, h1]; rfl
    · rw [remainderOf_cons c hc, if_pos h1, h2]

theorem remainderOf_no_nl (s : Str) : '\n' ∉ remainderOf s := by
  induction s with
  | nil => simp [remainderOf_nil]
  | cons c s ih =>
    by_cases hc : c = '\n'
    · subst hc; rw [remainderOf_cons_nl]; exact ih
    · rw [remainderOf_cons c hc]
      split
      · intro hm
        rcases List.mem_cons.mp hm with h | h
        · exact hc h.symm
        · exact ih h
      · exact ih

theorem splitNl_parts_compose (s t : Str) :
    completedOf (s ++ t) = completedOf s ++ completedOf (remainderOf s ++ t)
    ∧ remainderOf (s ++ t) = remainderOf (remainderOf s ++ t) := by
  have hr := no_nl_remainder (remainderOf s) (remainderOf_no_nl s)
  have h1 := splitNl_parts_append s t
  have h2 := splitNl_parts_append (remainderOf s) t
  refine ⟨?_, ?_⟩
  · rw [h1.1, h2.1, hr.1, hr.2, List.nil_append]
  · rw [h1.2, h2.2, hr.2]

theorem completedOf_eq_nil_remainder (s : Str) (h : completedOf s = []) :
    remainderOf s = s := by
  induction s with
  | nil => rfl
  | cons c s ih =>
    by_cases hc : c = '\n'
    · subst hc; rw [completedOf_cons_nl] at h; exact absurd h (by simp)
    · rw [completedOf_cons c hc, modifyHead_eq_nil_iff] at h
      rw [remainderOf_cons c hc, if_pos h, ih h]

theorem remainderOf_append_newline (x : Str) :
    remainderOf (x ++ ['\n']) = [] := by
  have h := (splitNl_parts_append x ['\n']).2
  have hc : completedOf ['\n'] = ([] :: [] : List Str) := by
    rw [show (['\n'] : Str) = '\n' :: [] from rfl, completedOf_cons_nl,
      completedOf_nil]
  rw [h, hc, if_neg (by simp)]
  rw [show (['\n'] : Str) = '\n' :: [] from rfl, remainderOf_cons_nl,
    remainderOf_nil]

theorem endsWithNl_remainder (b c : Str) (h : endsWithNl c = true) :
    remainderOf (b ++ c) = [] := by
  have hl : ∃ a, a ∈ c.getLast? ∧ a = '\n' := by
    unfold endsWithNl at h
    cases hg : c.getLast? with
    | none => rw [hg] at h; simp at h
    | some a =>
      rw [hg] at h
      simp only [decide_eq_true_eq] at h
      exact ⟨a, by simp [hg], h⟩
  obtain ⟨a, ha, rfl⟩ := hl
  have hdec := List.dropLast_append_getLast? _ ha
  rw [← hdec, ← List.append_assoc]
  exact remainderOf_append_newline _

end SplitLemmas

section FlushLemmas

theorem emit_foldl (ty : LineType) (ls : List Str) (out : List TerminalLine) :
    ls.foldl (fun o l => appendOutput o ty l) out
      = out ++ toOutputLines ty (nonEmptyLines ls) := by
  induction ls generalizing out with
  | nil => simp [nonEmptyLines, toOutputLines]
  | cons l rest ih =>
    rw [List.foldl_cons, ih]
    by_cases hl : l = []
    · subst hl
      simp [appendOutput, nonEmptyLines, toOutputLines]
    · have h1 : appendOutput out ty l = out ++ [⟨ty, l⟩] := by
        simp [appendOutput, hl]
      have h2 : nonEmptyLines (l :: rest) = l :: nonEmptyLines rest := by
        simp [nonEmptyLines, List.filter_cons, List.isEmpty_iff, hl]
      rw [h1, h2]
      simp [toOutputLines]

/-- Characterization of one `flushOutput` call: the completed lines of
buffer-plus-chunk are appended (empty ones dropped by `appendOutput`)
and the remainder becomes the new buffer. -/
theorem flushOutput_eq (st : FlushState) (chunk : Str) :
    flushOutput st chunk =
      { outputBuffer := remainderOf (st.outputBuffer ++ chunk),
        output := st.output ++ toOutputLines LineType.output
          (nonEmptyLines (completedOf (st.outputBuffer ++ chunk))) } := by
  have hsplit := splitNl_eq_parts (st.outputBuffer ++ chunk)
  have hlen : (splitNl (st.outputBuffer ++ chunk)).length
      = (completedOf (st.outputBuffer ++ chunk)).length + 1 := by
    rw [hsplit]; simp
  have hlast : (splitNl (st.outputBuffer ++ chunk)).getLast?.getD []
      = remainderOf (st.outputBuffer ++ chunk) :=
    (List.getLastD_eq_getLast? [] (splitNl (st.outputBuffer ++ chunk))).symm
  have hdrop : (splitNl (st.outputBuffer ++ chunk)).dropLast
      = completedOf (st.outputBuffer ++ chunk) := by
    conv_lhs => rw [hsplit]
    exact List.dropLast_concat
  by_cases hcz : completedOf (st.outputBuffer ++ chunk) = []
  · have hlen1 : ¬ 1 < (splitNl (st.outputBuffer ++ chunk)).length := by
      rw [hlen, hcz]; simp
    have hrem : remainderOf (st.outputBuffer ++ chunk) = st.outputBuffer ++ chunk :=
      completedOf_eq_nil_remainder _ hcz
    by_cases hb : st.outputBuffer ++ chunk = []
    · simp [flushOutput, hb, splitNl, completedOf, remainderOf, nonEmptyLines,
        toOutputLines]
    · by_cases hend : endsWithNl chunk = true
      · exact absurd (hrem.symm.trans (endsWithNl_remainder st.outputBuffer chunk hend)) hb
      · simp [flushOutput, hlen1, hb, hend, hrem, hcz, nonEmptyLines, toOutputLines]
  · have hlen1 : 1 < (splitNl (st.outputBuffer ++ chunk)).length := by
      rw [hlen]
      cases hc : completedOf (st.outputBuffer ++ chunk) with
      | nil => exact absurd hc hcz
      | cons x t => simp
    by_cases hrz : remainderOf (st.outputBuffer ++ chunk) = []
    · simp [flushOutput, hlen1, hlast, hdrop, emit_foldl, hrz]
    · by_cases hend : endsWithNl chunk = true
      · exact absurd (endsWithNl_remainder st.outputBuffer chunk hend) hrz
      · simp [flushOutput, hlen1, hlast, hdrop, emit_foldl, hrz, hend]

theorem nonEmptyLines_append (l1 l2 : List Str) :
    nonEmptyLines (l1 ++ l2) = nonEmptyLines l1 ++ nonEmptyLines l2 := by
  simp [nonEmptyLines]

theorem toOutputLines_append (ty : LineType) (l1 l2 : List Str) :
    toOutputLines ty (l1 ++ l2) = toOutputLines ty l1 ++ toOutputLines ty l2 := by
  simp [toOutputLines]

/-- The reassembly fold: feeding chunks one at a time from a
newline-free buffer produces exactly the non-empty completed lines of
the concatenation, with the remainder in the buffer. -/
theorem flushOutput_foldl (chunks : List Str) (b : Str) (out : List TerminalLine)
    (hb : '\n' ∉ b) :
    chunks.foldl flushOutput ⟨b, out⟩ =
      { outputBuffer := remainderOf (b ++ chunks.flatten),
        output := out ++ toOutputLines LineType.output
          (nonEmptyLines (completedOf (b ++ chunks.flatten))) } := by
  induction chunks generalizing b out with
  | nil =>
    have h := no_nl_remainder b hb
    simp [h.1, h.2, nonEmptyLines, toOutputLines]
  | cons c cs ih =>
    simp only [List.foldl_cons, flushOutput_eq]
    rw [ih (remainderOf (b ++ c)) _ (remainderOf_no_nl _)]
    have hcomp := splitNl_parts_compose (b ++ c) cs.flatten
    simp only [List.flatten_cons, ← List.append_assoc]
    rw [hcomp.1, hcomp.2, nonEmptyLines_append, toOutputLines_append,
      List.append_assoc]

end FlushLemmas

/-- C1 counterexample: the claim says every line of the split is
appended, but `appendOutput` silently drops empty lines.  On the single
chunk consisting of one newline, the split yields the single (empty)
completed line, yet nothing is appended to the log. -/
theorem flushOutput_counterexample :
    completedOf ['\n'] = [[]]
    ∧ (List.foldl flushOutput ⟨[], []⟩ [['\n']]).output = []
    ∧ ¬ ((List.foldl flushOutput ⟨[], []⟩ [['\n']]).output
        = toOutputLines LineType.output (completedOf ['\n'])) := by
  decide

/-- C1 (amended): for every sequence of inbound chunks, feeding them
one at a time to `flushOutput` appends exactly the non-empty lines
among L1..Ln (the completed lines of the concatenation, in order; empty
lines are dropped by `appendOutput`), each by the time its terminator
has arrived — the statement holds for every chunk prefix, which gives
the emission instant — and the trailing remainder R is retained
un-emitted in the partial-line buffer. -/
theorem flushOutput_line_reassembly (chunks : List Str) :
    (List.foldl flushOutput ⟨[], []⟩ chunks).output
      = toOutputLines LineType.output (nonEmptyLines (completedOf chunks.flatten))
    ∧ (List.foldl flushOutput ⟨[], []⟩ chunks).outputBuffer
      = remainderOf chunks.flatten := by
  have h := flushOutput_foldl chunks [] [] (by simp)
  rw [h]
  simp

section History

/-- The two directions accepted by `TerminalService.getHistory`. -/
inductive HistoryDir where
  | prev
  | next
deriving DecidableEq

/-- The history-related fields of `TerminalService`: the pushed
commands and the cursor index (an integer, since -1 is a sentinel). -/
structure HistoryState where
  commandHistory : List Str
  historyIndex : Int
deriving DecidableEq

/-- `TerminalService.getHistory`, verbatim: `none` models the `null`
return on an empty history; otherwise the cursor moves, clamped to
[-1, length], and the command at the cursor (or the empty string at a
sentinel) is returned. -/
def getHistory (st : HistoryState) (d : HistoryDir) : HistoryState × Option Str :=
  if st.commandHistory.length = 0 then (st, none)
  else
    match d with
    | .prev =>
      let i := max (-1) (st.historyIndex - 1)
      (⟨st.commandHistory, i⟩,
        some (if i = -1 then [] else st.commandHistory.getD i.toNat []))
    | .next =>
      let i := min (st.commandHistory.length : Int) (st.historyIndex + 1)
      (⟨st.commandHistory, i⟩,
        some (if i = (st.commandHistory.length : Int) then []
          else st.commandHistory.getD i.toNat []))

/-- The push performed by `executeCommand`: append the command and set
the cursor to the new length (one past the newest entry). -/
def pushCommand (st : HistoryState) (cmd : Str) : HistoryState :=
  ⟨st.commandHistory ++ [cmd], (st.commandHistory.length : Int) + 1⟩

/-- The values returned by a sequence of `getHistory` calls, threading
the state. -/
def navResults (st : HistoryState) : List HistoryDir → List (Option Str)
  | [] => []
  | d :: rest => (getHistory st d).2 :: navResults (getHistory st d).1 rest

theorem pushCommand_foldl (h : List Str) (i : Int) (cmds : List Str)
    (hne : cmds ≠ []) :
    List.foldl pushCommand ⟨h, i⟩ cmds = ⟨h ++ cmds, ((h ++ cmds).length : Int)⟩ := by
  induction cmds generalizing h i with
  | nil => exact absurd rfl hne
  | cons c cs ih =>
    rw [List.foldl_cons]
    cases cs with
    | nil => simp [pushCommand]
    | cons c2 cs2 =>
      rw [ih (pushCommand ⟨h, i⟩ c).commandHistory (pushCommand ⟨h, i⟩ c).historyIndex
        (by simp)]
      simp [pushCommand]

theorem getHistory_prev (cmds : List Str) (idx : Int) (h : cmds.length ≠ 0) :
    getHistory ⟨cmds, idx⟩ HistoryDir.prev
      = (⟨cmds, max (-1) (idx - 1)⟩,
         some (if max (-1) (idx - 1) = -1 then []
           else cmds.getD (max (-1) (idx - 1)).toNat [])) := by
  simp only [getHistory]
  rw [if_neg h]

theorem getHistory_next (cmds : List Str) (idx : Int) (h : cmds.length ≠ 0) :
    getHistory ⟨cmds, idx⟩ HistoryDir.next
      = (⟨cmds, min (cmds.length : Int) (idx + 1)⟩,
         some (if min (cmds.length : Int) (idx + 1) = (cmds.length : Int) then []
           else cmds.getD (min (cmds.length : Int) (idx + 1)).toNat [])) := by
  simp only [getHistory]
  rw [if_neg h]

theorem navResults_prev_from (cmds : List Str) (hne : cmds ≠ []) (i : Nat)
    (hi : i ≤ cmds.length) :
    navResults ⟨cmds, (i : Int)⟩ (List.replicate (i + 1) HistoryDir.prev)
      = (cmds.take i).reverse.map some ++ [some []] := by
  have hlen : cmds.length ≠ 0 := by
    simpa [List.length_eq_zero] using hne
  induction i with
  | zero =>
    have hmax : max (-1) ((0 : Nat) - 1 : Int) = -1 := by omega
    rw [List.replicate_succ, List.replicate_zero, navResults,
      getHistory_prev cmds _ hlen, hmax]
    simp [navResults]
  | succ i ih =>
    have hmax : max (-1) (((i + 1 : Nat) : Int) - 1) = (i : Int) := by
      push_cast
      omega
    have hne2 : ¬ ((i : Int) = -1) := by omega
    rw [List.replicate_succ, navResults, getHistory_prev cmds _ hlen, hmax,
      if_neg hne2]
    simp only [Int.toNat_natCast]
    rw [ih (by omega)]
    have hlt : i < cmds.length := by omega
    have htake : (cmds.take (i + 1)).reverse = cmds[i] :: (cmds.take i).reverse := by
      rw [List.take_succ, List.getElem?_eq_getElem hlt]
      simp
    have hgetd : cmds.getD i [] = cmds[i] := by
      simp [List.getElem?_eq_getElem hlt]
    rw [htake, hgetd, List.map_cons]
    rfl

theorem navResults_next_at_end (cmds : List Str) (hne : cmds ≠ []) (k : Nat) :
    navResults ⟨cmds, (cmds.length : Int)⟩ (List.replicate k HistoryDir.next)
      = List.replicate k (some []) := by
  have hlen : cmds.length ≠ 0 := by
    simpa [List.length_eq_zero] using hne
  induction k with
  | zero => rfl
  | succ k ih =>
    have hmin : min (cmds.length : Int) ((cmds.length : Int) + 1)
        = (cmds.length : Int) := by omega
    rw [List.replicate_succ, navResults, getHistory_next cmds _ hlen, hmin,
      if_pos rfl, ih]
    rfl

theorem navResults_next_from (cmds : List Str) (hne : cmds ≠ []) (j : Nat)
    (hj : j ≤ cmds.length) (k : Nat) :
    navResults ⟨cmds, (j : Int) - 1⟩ (List.replicate k HistoryDir.next)
      = ((cmds.drop j).map some).take k
        ++ List.replicate (k - (cmds.length - j)) (some []) := by
  have hlen : cmds.length ≠ 0 := by
    simpa [List.length_eq_zero] using hne
  induction k generalizing j with
  | zero => simp [navResults]
  | succ k ih =>
    by_cases hj2 : j = cmds.length
    · subst hj2
      have hmin : min (cmds.length : Int) ((cmds.length : Int) - 1 + 1)
          = (cmds.length : Int) := by omega
      rw [List.replicate_succ, navResults, getHistory_next cmds _ hlen, hmin,
        if_pos rfl, navResults_next_at_end cmds hne k]
      simp [List.replicate_succ]
    · have hlt : j < cmds.length := by omega
      have hmin : min (cmds.length : Int) ((j : Int) - 1 + 1) = (j : Int) := by
        omega
      have hne2 : ¬ ((j : Int) = (cmds.length : Int)) := by
        intro hc
        exact hj2 (by exact_mod_cast hc)
      rw [List.replicate_succ, navResults, getHistory_next cmds _ hlen, hmin,
        if_neg hne2]
      simp only [Int.toNat_natCast]
      have hcast : ((j + 1 : Nat) : Int) - 1 = (j : Int) := by
        push_cast
        omega
      have hrec := ih (j + 1) (by omega)
      rw [hcast] at hrec
      rw [hrec]
      have hdrop : cmds.drop j = cmds[j] :: cmds.drop (j + 1) :=
        List.drop_eq_getElem_cons hlt
      have hgetd : cmds.getD j [] = cmds[j] := by
        simp [List.getElem?_eq_getElem hlt]
      have hcount : k + 1 - (cmds.length - j) = k - (cmds.length - (j + 1)) := by
        omega
      rw [hdrop, hgetd, List.map_cons, List.take_succ_cons, hcount]
      rfl

/-- C6: `getHistory` navigation.  (1) `none` is returned exactly when
the history is empty; (2) `prev` sets the cursor to `max (-1) (cursor-1)`
and returns the empty string at the sentinel, else the command at the
cursor; (3) `next` sets the cursor to `min length (cursor+1)` and
returns the empty string at the sentinel, else the command at the
cursor; (4) `prev` at -1 stays at -1; (5) `next` at `length` stays at
`length`; (6) pushing N commands leaves the cursor at N; (7) N+1 `prev`
calls then return the commands newest-to-oldest followed by the empty
string; (8) from the -1 sentinel, `next` returns the commands
oldest-to-newest and the empty string on every call past the N-th. -/
theorem history_navigation :
    (∀ st d, ((getHistory st d).2 = none ↔ st.commandHistory = []))
    ∧ (∀ st : HistoryState, st.commandHistory ≠ [] →
        (getHistory st HistoryDir.prev).1.historyIndex = max (-1) (st.historyIndex - 1)
        ∧ (getHistory st HistoryDir.prev).2
          = some (if max (-1) (st.historyIndex - 1) = -1 then []
              else st.commandHistory.getD (max (-1) (st.historyIndex - 1)).toNat []))
    ∧ (∀ st : HistoryState, st.commandHistory ≠ [] →
        (getHistory st HistoryDir.next).1.historyIndex
          = min (st.commandHistory.length : Int) (st.historyIndex + 1)
        ∧ (getHistory st HistoryDir.next).2
          = some (if min (st.commandHistory.length : Int) (st.historyIndex + 1)
                = (st.commandHistory.length : Int) then []
              else st.commandHistory.getD
                (min (st.commandHistory.length : Int) (st.historyIndex + 1)).toNat []))
    ∧ (∀ st : HistoryState, st.historyIndex = -1 →
        (getHistory st HistoryDir.prev).1.historyIndex = -1)
    ∧ (∀ st : HistoryState, st.historyIndex = (st.commandHistory.length : Int) →
        (getHistory st HistoryDir.next).1.historyIndex
          = (st.commandHistory.length : Int))
    ∧ (∀ cmds : List Str, cmds ≠ [] →
        List.foldl pushCommand ⟨[], -1⟩ cmds = ⟨cmds, (cmds.length : Int)⟩)
    ∧ (∀ cmds : List Str, cmds ≠ [] →
        navResults ⟨cmds, (cmds.length : Int)⟩
            (List.replicate (cmds.length + 1) HistoryDir.prev)
          = cmds.reverse.map some ++ [some []])
    ∧ (∀ cmds : List Str, cmds ≠ [] → ∀ k,
        navResults ⟨cmds, -1⟩ (List.replicate k HistoryDir.next)
          = (cmds.map some).take k
            ++ List.replicate (k - cmds.length) (some [])) := by
  refine ⟨?_, ?_, ?_, ?_, ?_, ?_, ?_, ?_⟩
  · intro st d
    obtain ⟨cmds, idx⟩ := st
    constructor
    · intro h
      by_contra hne
      have hlen : cmds.length ≠ 0 := by
        simpa [List.length_eq_zero] using hne
      cases d with
      | prev => rw [getHistory_prev cmds idx hlen] at h; exact Option.noConfusion h
      | next => rw [getHistory_next cmds idx hlen] at h; exact Option.noConfusion h
    · intro h
      subst h
      simp [getHistory]
  · intro st hne
    obtain ⟨cmds, idx⟩ := st
    have hlen : cmds.length ≠ 0 := by
      simpa [List.length_eq_zero] using hne
    rw [getHistory_prev cmds idx hlen]
    exact ⟨rfl, rfl⟩
  · intro st hne
    obtain ⟨cmds, idx⟩ := st
    have hlen : cmds.length ≠ 0 := by
      simpa [List.length_eq_zero] using hne
    rw [getHistory_next cmds idx hlen]
    exact ⟨rfl, rfl⟩
  · intro st hidx
    obtain ⟨cmds, idx⟩ := st
    simp only at hidx
    by_cases hlen : cmds.length = 0
    · simp [getHistory, hlen, hidx]
    · rw [getHistory_prev cmds idx hlen]
      subst hidx
      simp
  · intro st hidx
    obtain ⟨cmds, idx⟩ := st
    simp only at hidx
    by_cases hlen : cmds.length = 0
    · rw [hidx]
      simp [getHistory, hlen]
    · rw [getHistory_next cmds idx hlen]
      subst hidx
      simp
  · intro cmds hne
    have h := pushCommand_foldl [] (-1) cmds hne
    simpa using h
  · intro cmds hne
    have h := navResults_prev_from cmds hne cmds.length (Nat.le_refl _)
    rw [List.take_length] at h
    exact h
  · intro cmds hne k
    have h := navResults_next_from cmds hne 0 (Nat.zero_le _) k
    have hcast : ((0 : Nat) : Int) - 1 = (-1 : Int) := by omega
    rw [hcast, List.drop_zero, Nat.sub_zero] at h
    exact h

/-- C6 witness: the spec example — push `ls`, `pwd`, `cd /`; four
`prev` calls return `cd /`, `pwd`, `ls`, then the empty string. -/
theorem history_navigation_witness :
    navResults ⟨["ls".toList, "pwd".toList, "cd /".toList], 3⟩
        (List.replicate 4 HistoryDir.prev)
      = [some "cd /".toList, some "pwd".toList, some "ls".toList, some []] := by
  have h7 := history_navigation.2.2.2.2.2.2.1
    ["ls".toList, "pwd".toList, "cd /".toList] (by decide)
  exact h7.trans (by decide)

end History

section OneShot

/-- The `RunCommandResponse` shape of the one-shot `POST /api/run`
endpoint.  The optional `timed_out` field is modelled as a boolean
(absent is falsy in the source). -/
structure RunCommandResponse where
  ok : Bool
  stdout : Str
  stderr : Str
  exit_code : Int
  timed_out : Bool
deriving DecidableEq

/-- The error line emitted when `timed_out` is set. -/
def timedOutMsg : Str := "Command timed out.".toList

/-- The success handler of `runViaRemoteApi`: split `stdout` on the
terminator and append each line as Output, then `stderr` as Error, then
one extra Error line when `timed_out` is set (each split piece goes
through `appendOutput`, the emptiness guards mirroring the
JavaScript truthiness tests on `data.stdout` and `data.stderr`). -/
def handleRunResponse (out : List TerminalLine) (data : RunCommandResponse) :
    List TerminalLine :=
  let out1 := if data.stdout ≠ [] then
      (splitNl data.stdout).foldl (fun o l => appendOutput o LineType.output l) out
    else out
  let out2 := if data.stderr ≠ [] then
      (splitNl data.stderr).foldl (fun o l => appendOutput o LineType.error l) out1
    else out1
  if data.timed_out then appendOutput out2 LineType.error timedOutMsg else out2

/-- The diagnostic text of the `catch` handler of `runViaRemoteApi`:
the error message when truthy, a generic fallback otherwise. -/
def requestFailedMsg (errMessage : Option Str) : Str :=
  "Request failed: ".toList
    ++ (match errMessage with
        | some m => if m ≠ [] then m else "Network error".toList
        | none => "Network error".toList)
    ++ ". Check URL and CORS.".toList

/-- The completion of one `runViaRemoteApi` round trip: on a decoded
response the success handler runs; on a network-level failure the
`catch` handler appends one diagnostic Error line.  The function is
total — no exception escapes to the caller. -/
def runViaRemoteApiResult (out : List TerminalLine)
    (result : Except (Option Str) RunCommandResponse) : List TerminalLine :=
  match result with
  | .ok data => handleRunResponse out data
  | .error e => appendOutput out LineType.error (requestFailedMsg e)

theorem handleRunResponse_eq (out : List TerminalLine) (data : RunCommandResponse) :
    handleRunResponse out data =
      out ++ toOutputLines LineType.output (nonEmptyLines (splitNl data.stdout))
          ++ toOutputLines LineType.error (nonEmptyLines (splitNl data.stderr))
          ++ (if data.timed_out then [⟨LineType.error, timedOutMsg⟩] else []) := by
  simp only [handleRunResponse]
  have hout : (if data.stdout ≠ [] then
      (splitNl data.stdout).foldl (fun o l => appendOutput o LineType.output l) out
    else out) = out ++ toOutputLines LineType.output (nonEmptyLines (splitNl data.stdout)) := by
    by_cases h : data.stdout = []
    · rw [if_neg (by simp [h]), h]
      simp [splitNl, nonEmptyLines, toOutputLines]
    · rw [if_pos h, emit_foldl]
  rw [hout]
  have herr : ∀ mid : List TerminalLine, (if data.stderr ≠ [] then
      (splitNl data.stderr).foldl (fun o l => appendOutput o LineType.error l) mid
    else mid) = mid ++ toOutputLines LineType.error (nonEmptyLines (splitNl data.stderr)) := by
    intro mid
    by_cases h : data.stderr = []
    · rw [if_neg (by simp [h]), h]
      simp [splitNl, nonEmptyLines, toOutputLines]
    · rw [if_pos h, emit_foldl]
  rw [herr]
  by_cases ht : data.timed_out = true
  · rw [if_pos ht, if_pos ht]
    simp [appendOutput, timedOutMsg]
  · rw [if_neg ht, if_neg ht]
    simp

/-- C7: one-shot response splitting — on a decoded response, the
appended lines are exactly the non-empty stdout fragments as Output, in
order, then the non-empty stderr fragments as Error, in order (so every
stdout line precedes every stderr line and no empty fragment is ever
emitted), then exactly one extra Error line when `timed_out` is set. -/
theorem oneShot_response_splitting (out : List TerminalLine)
    (data : RunCommandResponse) :
    runViaRemoteApiResult out (Except.ok data)
      = out ++ toOutputLines LineType.output (nonEmptyLines (splitNl data.stdout))
          ++ toOutputLines LineType.error (nonEmptyLines (splitNl data.stderr))
          ++ (if data.timed_out then [⟨LineType.error, timedOutMsg⟩] else []) :=
  handleRunResponse_eq out data

/-- C8: one-shot network failure — for every failed request, exactly
one Error line is appended, it carries a non-empty diagnostic message,
and the handler completes normally (it is a total function into the
log, so nothing propagates to the caller). -/
theorem oneShot_network_failure (out : List TerminalLine) (e : Option Str) :
    runViaRemoteApiResult out (Except.error e)
        = out ++ [⟨LineType.error, requestFailedMsg e⟩]
      ∧ (runViaRemoteApiResult out (Except.error e)).length = out.length + 1
      ∧ requestFailedMsg e ≠ [] := by
  have hne : requestFailedMsg e ≠ [] := by
    unfold requestFailedMsg
    simp
  have heq : runViaRemoteApiResult out (Except.error e)
      = out ++ [⟨LineType.error, requestFailedMsg e⟩] := by
    simp only [runViaRemoteApiResult, appendOutput]
    rw [if_neg hne]
  exact ⟨heq, by rw [heq]; simp, hne⟩

end OneShot

section TerminalMachine

/-- JavaScript `s.trim()`: strip whitespace from both ends. -/
def trimStr (s : Str) : Str :=
  ((s.dropWhile Char.isWhitespace).reverse.dropWhile Char.isWhitespace).reverse

/-- JavaScript `s.toLowerCase()` on the scheme test. -/
def lowerStr (s : Str) : Str := s.map Char.toLower

/-- `TerminalService.isHttpUrl`: the lowered address begins with an
HTTP-family scheme. -/
def hasHttpScheme (url : Str) : Bool :=
  List.isPrefixOf "http://".toList (lowerStr url)
    || List.isPrefixOf "https://".toList (lowerStr url)

/-- JavaScript `url.replace(/\/+$/, '')`: drop every trailing slash. -/
def stripTrailingSlashes (s : Str) : Str :=
  (s.reverse.dropWhile (fun c => c = '/')).reverse

/-- The full `TerminalService` state: the output log, the command
history with its cursor, the connection flags, the partial-line buffer
and the current server address. -/
structure TerminalState where
  output : List TerminalLine
  commandHistory : List Str
  historyIndex : Int
  connected : Bool
  isRemoteApi : Bool
  outputBuffer : Str
  wsOpen : Bool
  serverUrl : Str

/-- `TerminalService.connectRemoteApi`: close an open socket, strip
trailing slashes, mark connected over the remote API and append the
two banner lines. -/
def connectRemoteApi (st : TerminalState) (baseUrl : Str) : TerminalState :=
  let st1 := if st.wsOpen then { st with wsOpen := false } else st
  let apiBase := stripTrailingSlashes baseUrl
  let out1 := appendOutput st1.output LineType.output
    ("Connected to remote API: ".toList ++ apiBase)
  let out2 := appendOutput out1 LineType.output
    "Type commands below (each runs via POST /api/run).".toList
  { st1 with
    serverUrl := apiBase
    connected := true
    isRemoteApi := true
    output := out2 }

/-- `TerminalService.connectWebSocket`: no-op when a socket is already
open; otherwise announce the attempt and, when the constructor throws
(`ctorOk = false`), mark disconnected and append the failure line
(`errText` is the stringified exception). -/
def connectWebSocket (st : TerminalState) (url : Str) (ctorOk : Bool)
    (errText : Str) : TerminalState :=
  if st.wsOpen then st
  else
    let st1 := { st with isRemoteApi := false }
    let out1 := appendOutput st1.output LineType.output
      ("Connecting to ".toList ++ url ++ "...".toList)
    if ctorOk then { st1 with output := out1 }
    else { st1 with
      connected := false
      output := appendOutput out1 LineType.error
        ("Failed to connect: ".toList ++ errText) }

/-- `TerminalService.connect`: resolve the target address, record it
and dispatch on the scheme. -/
def connectOp (st : TerminalState) (urlArg : Option Str) (ctorOk : Bool)
    (errText : Str) : TerminalState :=
  let base := match urlArg with
    | some u => u
    | none => st.serverUrl
  let url := if trimStr base ≠ [] then trimStr base else st.serverUrl
  let st1 := { st with serverUrl := url }
  if hasHttpScheme url then connectRemoteApi st1 url
  else connectWebSocket st1 url ctorOk errText

/-- `TerminalService.executeCommand`: trim, ignore the empty command,
clear on `clear`/`cls`, push to history, warn when disconnected, else
echo the command (transport submission itself appends nothing). -/
def executeCommand (st : TerminalState) (raw : Str) : TerminalState :=
  let cmd := trimStr raw
  if cmd = [] then st
  else if cmd = "clear".toList ∨ cmd = "cls".toList then { st with output := [] }
  else
    let st1 := { st with
      commandHistory := st.commandHistory ++ [cmd]
      historyIndex := (st.commandHistory.length : Int) + 1 }
    if st1.connected = false then
      { st1 with
        output := appendOutput st1.output LineType.output
          "Not connected. Enter server URL and tap Connect.".toList }
    else
      { st1 with output := appendOutput st1.output LineType.command cmd }

/-- The externally triggered operations of the terminal service:
the public methods plus the asynchronous socket events and the deferred
one-shot response handler. -/
inductive TermOp where
  | connect (urlArg : Option Str) (ctorOk : Bool) (errText : Str)
  | wsOnOpen
  | wsOnMessage (chunk : Str)
  | wsOnError
  | wsOnClose
  | disconnect
  | executeCommand (raw : Str)
  | runResponse (result : Except (Option Str) RunCommandResponse)
  | clear
  | navigate (d : HistoryDir)
  | setServerUrl (url : Str)

/-- One step of the terminal service, dispatching an operation to the
corresponding source handler. -/
def termStep (st : TerminalState) (op : TermOp) : TerminalState :=
  match op with
  | .connect urlArg ctorOk errText => connectOp st urlArg ctorOk errText
  | .wsOnOpen =>
      { st with
        connected := true
        wsOpen := true
        outputBuffer := []
        output := appendOutput st.output LineType.output
          "Connected. Type commands below.".toList }
  | .wsOnMessage chunk =>
      let fs := flushOutput ⟨st.outputBuffer, st.output⟩ chunk
      { st with outputBuffer := fs.outputBuffer, output := fs.output }
  | .wsOnError =>
      { st with
        output := appendOutput st.output LineType.error
          "WebSocket error.".toList }
  | .wsOnClose =>
      { st with
        connected := false
        wsOpen := false
        output := appendOutput st.output LineType.output
          "Disconnected from server.".toList }
  | .disconnect =>
      { st with
        wsOpen := false
        connected := false
        isRemoteApi := false
        output := appendOutput st.output LineType.output
          "Disconnected.".toList }
  | .executeCommand raw => executeCommand st raw
  | .runResponse result =>
      { st with output := runViaRemoteApiResult st.output result }
  | .clear => { st with output := [] }
  | .navigate d =>
      let r := getHistory ⟨st.commandHistory, st.historyIndex⟩ d
      { st with
        commandHistory := r.1.commandHistory
        historyIndex := r.1.historyIndex }
  | .setServerUrl url =>
      { st with serverUrl := if trimStr url ≠ [] then trimStr url
          else "https://agent.kodbro.com".toList }

/-- The freshly constructed service. -/
def initialTerminalState : TerminalState :=
  { output := []
    commandHistory := []
    historyIndex := -1
    connected := false
    isRemoteApi := false
    outputBuffer := []
    wsOpen := false
    serverUrl := "https://agent.kodbro.com".toList }

/-- The log invariant: every stored line has non-empty text. -/
def outputNonEmpty (out : List TerminalLine) : Prop :=
  ∀ l ∈ out, l.text ≠ []

theorem appendOutput_preserves (out : List TerminalLine) (ty : LineType)
    (text : Str) (h : outputNonEmpty out) :
    outputNonEmpty (appendOutput out ty text) := by
  unfold appendOutput
  split
  · exact h
  next hne =>
    intro l hl
    rcases List.mem_append.mp hl with hmem | hmem
    · exact h l hmem
    · rcases List.mem_singleton.mp hmem with rfl
      exact hne

theorem toOutputLines_nonEmpty (ty : LineType) (ls : List Str) :
    outputNonEmpty (toOutputLines ty (nonEmptyLines ls)) := by
  intro l hl
  simp only [toOutputLines, List.mem_map] at hl
  obtain ⟨s, hs, rfl⟩ := hl
  simp only [nonEmptyLines, List.mem_filter] at hs
  simpa [List.isEmpty_iff] using hs.2

theorem outputNonEmpty_append (a b : List TerminalLine)
    (ha : outputNonEmpty a) (hb : outputNonEmpty b) :
    outputNonEmpty (a ++ b) := by
  intro l hl
  rcases List.mem_append.mp hl with h | h
  · exact ha l h
  · exact hb l h

theorem flushOutput_preserves (st : FlushState) (chunk : Str)
    (h : outputNonEmpty st.output) :
    outputNonEmpty (flushOutput st chunk).output := by
  rw [flushOutput_eq]
  exact outputNonEmpty_append _ _ h (toOutputLines_nonEmpty _ _)

theorem runViaRemoteApiResult_preserves (out : List TerminalLine)
    (result : Except (Option Str) RunCommandResponse)
    (h : outputNonEmpty out) :
    outputNonEmpty (runViaRemoteApiResult out result) := by
  cases result with
  | ok data =>
    show outputNonEmpty (handleRunResponse out data)
    rw [handleRunResponse_eq]
    refine outputNonEmpty_append _ _ (outputNonEmpty_append _ _
      (outputNonEmpty_append _ _ h (toOutputLines_nonEmpty _ _))
      (toOutputLines_nonEmpty _ _)) ?_
    intro l hl
    split at hl
    · rcases List.mem_singleton.mp hl with rfl
      simp [timedOutMsg]
    · simp at hl
  | error e =>
    show outputNonEmpty (appendOutput out LineType.error (requestFailedMsg e))
    exact appendOutput_preserves _ _ _ h

theorem connectRemoteApi_preserves (st : TerminalState) (baseUrl : Str)
    (h : outputNonEmpty st.output) :
    outputNonEmpty (connectRemoteApi st baseUrl).output := by
  simp only [connectRemoteApi]
  refine appendOutput_preserves _ _ _ (appendOutput_preserves _ _ _ ?_)
  split <;> exact h

theorem connectWebSocket_preserves (st : TerminalState) (url : Str)
    (ctorOk : Bool) (errText : Str) (h : outputNonEmpty st.output) :
    outputNonEmpty (connectWebSocket st url ctorOk errText).output := by
  simp only [connectWebSocket]
  split
  · exact h
  · split <;> dsimp only
    · exact appendOutput_preserves _ _ _ h
    · exact appendOutput_preserves _ _ _ (appendOutput_preserves _ _ _ h)

theorem executeCommand_preserves (st : TerminalState) (raw : Str)
    (h : outputNonEmpty st.output) :
    outputNonEmpty (executeCommand st raw).output := by
  simp only [executeCommand]
  split
  · exact h
  · split
    · intro l hl
      simp at hl
    · split <;> dsimp only
      · exact appendOutput_preserves _ _ _ h
      · exact appendOutput_preserves _ _ _ h

theorem termStep_preserves (st : TerminalState) (op : TermOp)
    (h : outputNonEmpty st.output) :
    outputNonEmpty (termStep st op).output := by
  cases op with
  | connect urlArg ctorOk errText =>
    cases urlArg <;> simp only [termStep, connectOp] <;> split <;> split <;>
      first
      | (refine connectRemoteApi_preserves _ _ ?_
         dsimp only
         exact h)
      | (refine connectWebSocket_preserves _ _ _ _ ?_
         dsimp only
         exact h)
  | wsOnOpen =>
    simp only [termStep]
    exact appendOutput_preserves _ _ _ h
  | wsOnMessage chunk =>
    simp only [termStep]
    exact (flushOutput_preserves ⟨st.outputBuffer, st.output⟩ chunk h)
  | wsOnError =>
    simp only [termStep]
    exact appendOutput_preserves _ _ _ h
  | wsOnClose =>
    simp only [termStep]
    exact appendOutput_preserves _ _ _ h
  | disconnect =>
    simp only [termStep]
    exact appendOutput_preserves _ _ _ h
  | executeCommand raw =>
    simp only [termStep]
    exact executeCommand_preserves st raw h
  | runResponse result =>
    simp only [termStep]
    exact runViaRemoteApiResult_preserves _ _ h
  | clear =>
    simp only [termStep]
    intro l hl
    simp at hl
  | navigate d =>
    simp only [termStep]
    exact h
  | setServerUrl url =>
    simp only [termStep]
    exact h

/-- C10: implicit log invariant — after any sequence of terminal
operations from the initial state, every `TerminalLine` stored in the
output log has non-empty text, because every append goes through
`appendOutput`, which silently drops the empty string. -/
theorem output_lines_nonempty (ops : List TermOp) :
    ∀ l ∈ (List.foldl termStep initialTerminalState ops).output, l.text ≠ [] := by
  have main : ∀ ops2 st, outputNonEmpty st.output →
      outputNonEmpty (List.foldl termStep st ops2).output := by
    intro ops2
    induction ops2 with
    | nil => intro st h; exact h
    | cons op rest ih =>
      intro st h
      rw [List.foldl_cons]
      exact ih _ (termStep_preserves st op h)
  exact main ops initialTerminalState (by intro l hl; simp [initialTerminalState] at hl)

/-- C10 witness: after a socket error event, the stored diagnostic line
is non-empty. -/
theorem output_lines_nonempty_witness :
    ("WebSocket error.".toList : Str) ≠ [] :=
  output_lines_nonempty [TermOp.wsOnError]
    ⟨LineType.error, "WebSocket error.".toList⟩ (by decide)

end TerminalMachine

section EventStream

/-- The `AgentLogEvent` tagged union of the agent service. -/
inductive AgentLogEvent where
  | log (message : Str) (level : Option Str)
  | done (reply : Str) (tool_summary : Option (List Str))
  | error (error : Str)
deriving DecidableEq

/-- The `data.type` test performed after each emission in the read
loop: true exactly on a `done`-kind event. -/
def isDoneEvent : AgentLogEvent → Bool
  | .done _ _ => true
  | _ => false

/-- The frame accumulator of the read loop: the recorded event type
and data payload (`eventType` / `eventData` in the source). -/
structure FrameAcc where
  eventType : Str
  eventData : Str
deriving DecidableEq

/-- The event-type marker (seven characters, matching `slice(7)`). -/
def eventMarker : Str := ['e', 'v', 'e', 'n', 't', ':', ' ']

/-- The data marker (six characters, matching `slice(6)`). -/
def dataMarker : Str := ['d', 'a', 't', 'a', ':', ' ']

/-- The `for (const line of lines)` body of `streamSessionLogs`,
processing the completed lines of one read.  An event-marker line
records the trimmed remainder as the event type; a data-marker line
records the remainder as the payload; a blank line with both fields
recorded attempts `JSON.parse` (the oracle `parseJson`): on success the
parsed event is passed to `subscriber.next`, and when its type is
`done` the subscriber is completed and the whole loop returns; on
failure nothing is emitted; either way both fields are reset.  Any
other line leaves the accumulator unchanged.  Returns the emitted
events and `none` when the loop returned at a `done` event, otherwise
`some` of the accumulator left for the following lines. -/
def processLines (parseJson : Str → Option AgentLogEvent) :
    FrameAcc → List Str → List AgentLogEvent × Option FrameAcc
  | acc, [] => ([], some acc)
  | acc, line :: rest =>
    if List.isPrefixOf eventMarker line then
      processLines parseJson { acc with eventType := trimStr (line.drop 7) } rest
    else if List.isPrefixOf dataMarker line then
      processLines parseJson { acc with eventData := line.drop 6 } rest
    else if line = [] ∧ acc.eventType ≠ [] ∧ acc.eventData ≠ [] then
      match parseJson acc.eventData with
      | some ev =>
        if isDoneEvent ev then ([ev], none)
        else
          let r := processLines parseJson ⟨[], []⟩ rest
          (ev :: r.1, r.2)
      | none => processLines parseJson ⟨[], []⟩ rest
    else processLines parseJson acc rest

/-- One iteration of the read loop after `reader.read()` returns a
chunk: append to the decode buffer, split on the terminator, pop the
trailing partial line back into the buffer, and process the completed
lines with a FRESH frame accumulator — `eventType` and `eventData` are
declared inside the `while` loop in the source.  Returns the new
buffer, the emitted events and whether the loop returned at `done`. -/
def processChunk (parseJson : Str → Option AgentLogEvent) (buffer chunk : Str) :
    Str × List AgentLogEvent × Bool :=
  let buf := buffer ++ chunk
  let lines := splitNl buf
  let newBuffer := lines.getLastD []
  let r := processLines parseJson ⟨[], []⟩ lines.dropLast
  (newBuffer, r.1, r.2.isNone)

/-- One result of `reader.read()`: a data chunk, or end of stream. -/
inductive ReadResult where
  | chunk (s : Str)
  | eos
deriving DecidableEq

/-- Count down to the read during which the external cancel request
arrives. -/
def cancelAtNext : Option Nat → Option Nat
  | some (n + 1) => some n
  | _ => none

/-- The read loop of `streamSessionLogs`.  `cancelled` is the flag set
by the teardown closure, checked at the top of each iteration
(`while (!cancelled)`).  `cancelAt = some k` models the external cancel
request arriving while the k-th remaining read is in flight: the flag
is set after that read resolves but before the next loop check, so the
events decoded from that read still go through `subscriber.next`.  The
result is the sequence of events passed to `subscriber.next`, in
order; the loop exits on end of stream, on a `done` event (after
emitting it) or at a loop check that observes the flag. -/
def runReads (parseJson : Str → Option AgentLogEvent) (cancelled : Bool)
    (cancelAt : Option Nat) (buffer : Str) :
    List ReadResult → List AgentLogEvent
  | [] => []
  | r :: rest =>
    if cancelled then []
    else
      match r with
      | .eos => []
      | .chunk s =>
        let pc := processChunk parseJson buffer s
        if pc.2.2 then pc.2.1
        else pc.2.1 ++ runReads parseJson (cancelAt = some 0)
          (cancelAtNext cancelAt) pc.1 rest

/-- The subscription entry point of `streamSessionLogs`: the loop
starts with an empty buffer and an unset cancellation flag. -/
def streamSessionLogs (parseJson : Str → Option AgentLogEvent)
    (cancelAt : Option Nat) (reads : List ReadResult) : List AgentLogEvent :=
  runReads parseJson false cancelAt [] reads

/-- One frame of the event-stream wire format: an `event:` line, a
`data:` line and the terminating blank line. -/
def mkFrame (t p : Str) : Str :=
  eventMarker ++ t ++ ['\n'] ++ (dataMarker ++ p ++ ['\n', '\n'])

/-- A concrete instantiation of the `JSON.parse` oracle used on
explicit inputs: two recognised payloads, everything else fails to
parse. -/
def demoParse : Str → Option AgentLogEvent := fun s =>
  if s = "LOGPAYLOAD".toList then some (.log "building".toList none)
  else if s = "DONEPAYLOAD".toList then some (.done "ok".toList none)
  else none

end EventStream

section CancellationLemmas

theorem runReads_cancelled (parseJson : Str → Option AgentLogEvent)
    (cancelAt : Option Nat) (buffer : Str) (reads : List ReadResult) :
    runReads parseJson true cancelAt buffer reads = [] := by
  cases reads with
  | nil => rfl
  | cons r rest => simp [runReads]

theorem runReads_take (parseJson : Str → Option AgentLogEvent)
    (reads : List ReadResult) :
    ∀ (k : Nat) (buffer : Str),
      runReads parseJson false (some k) buffer reads
        = runReads parseJson false none buffer (reads.take (k + 1)) := by
  induction reads with
  | nil => intro k buffer; simp [runReads]
  | cons r rest ih =>
    intro k buffer
    cases r with
    | eos => simp [runReads]
    | chunk s =>
      rw [List.take_succ_cons]
      simp only [runReads, if_neg (by simp : ¬ (False : Prop))]
      cases k with
      | zero =>
        simp only [cancelAtNext]
        by_cases hstop : (processChunk parseJson buffer s).2.2 = true
        · simp [hstop]
        · simp only [Bool.not_eq_true] at hstop
          simp [hstop, runReads_cancelled, runReads]
      | succ n =>
        simp only [cancelAtNext]
        by_cases hstop : (processChunk parseJson buffer s).2.2 = true
        · simp [hstop]
        · have h1 : (decide (some (n + 1) = some 0)) = false := by simp
          have h2 : (decide ((none : Option Nat) = some 0)) = false := by simp
          simp only [Bool.not_eq_true] at hstop
          simp only [hstop, Bool.false_eq_true, if_false, h1, h2]
          rw [ih n]

end CancellationLemmas

/-- C2 counterexample: the claim says a read already in flight when
cancellation is requested has its result discarded, never emitted.
With the cancel request arriving during the very first read
(`cancelAt = some 0`), the event decoded from that read is still passed
to `subscriber.next`: one event, not zero, follows the cancel point. -/
theorem cancellation_counterexample :
    runReads demoParse false (some 0) []
        [ReadResult.chunk (mkFrame "log".toList "LOGPAYLOAD".toList)]
      = [AgentLogEvent.log "building".toList none]
    ∧ runReads demoParse false (some 0) []
        [ReadResult.chunk (mkFrame "log".toList "LOGPAYLOAD".toList)]
      ≠ [] := by
  decide

/-- C2 (amended): the cancellation flag is checked only at the top of
each read-loop iteration, not again before emission.  Consequently a
cancel request arriving during read k truncates the stream to exactly
the reads up to and including the in-flight one — whose decoded events
are still emitted via `subscriber.next` — and no later read is ever
processed; with the flag already set, the loop emits nothing at all. -/
theorem cancellation_loop_truncation (parseJson : Str → Option AgentLogEvent)
    (k : Nat) (buffer : Str) (reads : List ReadResult) :
    runReads parseJson false (some k) buffer reads
      = runReads parseJson false none buffer (reads.take (k + 1))
    ∧ ∀ (cancelAt : Option Nat) (b2 : Str) (rs2 : List ReadResult),
        runReads parseJson true cancelAt b2 rs2 = [] :=
  ⟨runReads_take parseJson reads k buffer,
   fun cancelAt b2 rs2 => runReads_cancelled parseJson cancelAt b2 rs2⟩

section DoneLemmas

/-- A done-kind event occurs only as the final emitted element. -/
def doneOnlyLast (evs : List AgentLogEvent) : Prop :=
  ∀ pre x post, evs = pre ++ x :: post → isDoneEvent x = true → post = []

theorem doneOnlyLast_nil : doneOnlyLast [] := by
  intro pre x post heq _
  exact absurd heq (by simp)

theorem doneOnlyLast_append (l1 l2 : List AgentLogEvent)
    (h2 : doneOnlyLast l2) :
    (∀ e ∈ l1, isDoneEvent e = false) → doneOnlyLast (l1 ++ l2) := by
  induction l1 with
  | nil =>
    intro _
    simpa using h2
  | cons a t ih =>
    intro h1
    intro pre x post heq hx
    cases pre with
    | nil =>
      simp only [List.nil_append, List.cons_append] at heq
      injection heq with ha htail
      subst ha
      have hfalse := h1 a (List.mem_cons_self a t)
      rw [hfalse] at hx
      exact absurd hx (by simp)
    | cons p pre2 =>
      simp only [List.cons_append] at heq
      injection heq with ha htail
      exact ih (fun e he => h1 e (List.mem_cons_of_mem a he)) pre2 x post htail hx

theorem doneOnlyLast_singleton (x : AgentLogEvent) : doneOnlyLast [x] := by
  intro pre y post heq _
  have hlen := congrArg List.length heq
  simp only [List.length_append, List.length_cons, List.length_nil] at hlen
  have : post.length = 0 := by omega
  exact List.length_eq_zero.mp this

theorem doneOnlyLast_concat (l1 : List AgentLogEvent) (x : AgentLogEvent)
    (h1 : ∀ e ∈ l1, isDoneEvent e = false) : doneOnlyLast (l1 ++ [x]) :=
  doneOnlyLast_append l1 [x] (doneOnlyLast_singleton x) h1

theorem processLines_done_spec (parseJson : Str → Option AgentLogEvent)
    (lines : List Str) : ∀ acc : FrameAcc,
    ((processLines parseJson acc lines).2.isSome = true →
      ∀ e ∈ (processLines parseJson acc lines).1, isDoneEvent e = false)
    ∧ ((processLines parseJson acc lines).2 = none →
      ∃ l1 x, (processLines parseJson acc lines).1 = l1 ++ [x]
        ∧ isDoneEvent x = true ∧ ∀ e ∈ l1, isDoneEvent e = false) := by
  induction lines with
  | nil =>
    intro acc
    constructor
    · intro _ e he
      simp [processLines] at he
    · intro h
      simp [processLines] at h
  | cons line rest ih =>
    intro acc
    by_cases hA : List.isPrefixOf eventMarker line = true
    · simp only [processLines, hA, if_true]
      exact ih _
    · by_cases hB : List.isPrefixOf dataMarker line = true
      · simp only [processLines, hA, Bool.false_eq_true, if_false, hB, if_true]
        exact ih _
      · by_cases hC : line = [] ∧ acc.eventType ≠ [] ∧ acc.eventData ≠ []
        · cases hparse : parseJson acc.eventData with
          | none =>
            simp only [processLines, hA, hB, Bool.false_eq_true, if_false,
              if_pos hC, hparse]
            exact ih _
          | some ev =>
            by_cases hdone : isDoneEvent ev = true
            · simp only [processLines, hA, hB, Bool.false_eq_true, if_false,
                if_pos hC, hparse, hdone, if_true]
              constructor
              · intro hsome
                simp at hsome
              · intro _
                exact ⟨[], ev, by simp, hdone, by simp⟩
            · simp only [processLines, hA, hB, Bool.false_eq_true, if_false,
                if_pos hC, hparse, hdone]
              constructor
              · intro hsome e he
                rcases List.mem_cons.mp he with rfl | he2
                · simpa using hdone
                · exact (ih ⟨[], []⟩).1 hsome e he2
              · intro hnone
                obtain ⟨l1, x, hx1, hx2, hx3⟩ := (ih ⟨[], []⟩).2 hnone
                refine ⟨ev :: l1, x, ?_, hx2, ?_⟩
                · simp only [List.cons_append]
                  rw [← hx1]
                · intro e he
                  rcases List.mem_cons.mp he with rfl | he2
                  · simpa using hdone
                  · exact hx3 e he2
        · simp only [processLines, hA, hB, Bool.false_eq_true, if_false,
            if_neg hC]
          exact ih acc

theorem processChunk_eq (parseJson : Str → Option AgentLogEvent)
    (buffer chunk : Str) :
    processChunk parseJson buffer chunk
      = ((splitNl (buffer ++ chunk)).getLastD [],
         (processLines parseJson ⟨[], []⟩ (splitNl (buffer ++ chunk)).dropLast).1,
         (processLines parseJson ⟨[], []⟩ (splitNl (buffer ++ chunk)).dropLast).2.isNone) :=
  rfl

theorem runReads_done_only_last (parseJson : Str → Option AgentLogEvent)
    (reads : List ReadResult) :
    ∀ (cancelled : Bool) (cancelAt : Option Nat) (buffer : Str),
      doneOnlyLast (runReads parseJson cancelled cancelAt buffer reads) := by
  induction reads with
  | nil =>
    intro cancelled cancelAt buffer
    exact doneOnlyLast_nil
  | cons r rest ih =>
    intro cancelled cancelAt buffer
    cases cancelled with
    | true =>
      rw [runReads_cancelled]
      exact doneOnlyLast_nil
    | false =>
      cases r with
      | eos =>
        have hval : runReads parseJson false cancelAt buffer
            (ReadResult.eos :: rest) = [] := by
          simp [runReads]
        rw [hval]
        exact doneOnlyLast_nil
      | chunk s =>
        have hunfold : runReads parseJson false cancelAt buffer
            (ReadResult.chunk s :: rest)
            = (if (processChunk parseJson buffer s).2.2 = true
               then (processChunk parseJson buffer s).2.1
               else (processChunk parseJson buffer s).2.1
                 ++ runReads parseJson (decide (cancelAt = some 0))
                   (cancelAtNext cancelAt) (processChunk parseJson buffer s).1
                   rest) := by
          simp [runReads]
        rw [hunfold, processChunk_eq]
        simp only
        by_cases hstop :
            (processLines parseJson ⟨[], []⟩
              (splitNl (buffer ++ s)).dropLast).2.isNone = true
        · rw [if_pos hstop]
          have hnone := Option.isNone_iff_eq_none.mp hstop
          obtain ⟨l1, x, h1, h2, h3⟩ :=
            (processLines_done_spec parseJson _ ⟨[], []⟩).2 hnone
          rw [h1]
          exact doneOnlyLast_concat l1 x h3
        · rw [if_neg hstop]
          have hsome : (processLines parseJson ⟨[], []⟩
              (splitNl (buffer ++ s)).dropLast).2.isSome = true := by
            rcases hval : (processLines parseJson ⟨[], []⟩
              (splitNl (buffer ++ s)).dropLast).2 with - | a
            · rw [hval] at hstop
              simp at hstop
            · simp
          have hall := (processLines_done_spec parseJson _ ⟨[], []⟩).1 hsome
          exact doneOnlyLast_append _ _ (ih _ _ _) hall

end DoneLemmas

/-- C3: `done` is terminal — in every event sequence the loop passes to
the subscriber, a done-kind event can only be the final element: once
`done` is emitted the subscriber is completed and the loop returns, so
no buffered or later frame is ever processed or emitted. -/
theorem done_event_terminal (parseJson : Str → Option AgentLogEvent)
    (cancelled : Bool) (cancelAt : Option Nat) (buffer : Str)
    (reads : List ReadResult) (pre : List AgentLogEvent) (x : AgentLogEvent)
    (post : List AgentLogEvent)
    (h : runReads parseJson cancelled cancelAt buffer reads = pre ++ x :: post)
    (hx : isDoneEvent x = true) : post = [] :=
  runReads_done_only_last parseJson reads cancelled cancelAt buffer pre x post h hx

/-- C3 witness: the spec example — a stream delivering a log frame,
then a done frame, then a further log frame yields exactly the two
events Log and Done; the applied theorem confirms nothing follows the
done event. -/
theorem done_event_terminal_witness :
    runReads demoParse false none []
        [ReadResult.chunk (mkFrame "log".toList "LOGPAYLOAD".toList
          ++ mkFrame "done".toList "DONEPAYLOAD".toList
          ++ mkFrame "log".toList "LOGPAYLOAD".toList)]
      = [AgentLogEvent.log "building".toList none,
         AgentLogEvent.done "ok".toList none]
    ∧ ([] : List AgentLogEvent) = [] :=
  ⟨by decide,
   done_event_terminal demoParse false none []
     [ReadResult.chunk (mkFrame "log".toList "LOGPAYLOAD".toList
       ++ mkFrame "done".toList "DONEPAYLOAD".toList
       ++ mkFrame "log".toList "LOGPAYLOAD".toList)]
     [AgentLogEvent.log "building".toList none]
     (AgentLogEvent.done "ok".toList none) [] (by decide) (by decide)⟩

/-- C4 (code bug): the frame accumulator is reinitialized at the start
of every read iteration, because `eventType` and `eventData` are
declared inside the `while` loop.  The same frame bytes emit the event
when delivered in one read, but emit nothing when the `event:` line and
the `data:`/blank lines arrive in different reads — the event type
recorded from the first read is forgotten. -/
theorem frame_reset_across_reads_bug :
    runReads demoParse false none []
        [ReadResult.chunk (eventMarker ++ "log".toList ++ ['\n']),
         ReadResult.chunk (dataMarker ++ "LOGPAYLOAD".toList ++ ['\n', '\n'])]
      = []
    ∧ runReads demoParse false none []
        [ReadResult.chunk (mkFrame "log".toList "LOGPAYLOAD".toList)]
      = [AgentLogEvent.log "building".toList none] := by
  decide

section FrameLemmas

theorem splitNl_append_cons_nl (a b : Str) (h : '\n' ∉ a) :
    splitNl (a ++ '\n' :: b) = a :: splitNl b := by
  induction a with
  | nil => exact splitNl_cons_nl b
  | cons c a ih =>
    have hc : c ≠ '\n' := fun hcc => h (hcc ▸ List.mem_cons_self c a)
    have ha : '\n' ∉ a := fun hm => h (List.mem_cons_of_mem c hm)
    rw [List.cons_append, splitNl_cons_other c hc, ih ha]
    rfl

theorem splitNl_mkFrame_append (t p s : Str) (ht : '\n' ∉ t) (hp : '\n' ∉ p) :
    splitNl (mkFrame t p ++ s)
      = (eventMarker ++ t) :: (dataMarker ++ p) :: [] :: splitNl s := by
  have hem : '\n' ∉ eventMarker ++ t := by
    intro hm
    rcases List.mem_append.mp hm with hm2 | hm2
    · exact absurd hm2 (by decide)
    · exact ht hm2
  have hdm : '\n' ∉ dataMarker ++ p := by
    intro hm
    rcases List.mem_append.mp hm with hm2 | hm2
    · exact absurd hm2 (by decide)
    · exact hp hm2
  have hshape : mkFrame t p ++ s
      = (eventMarker ++ t) ++ '\n' :: ((dataMarker ++ p) ++ '\n' :: '\n' :: s) := by
    simp [mkFrame]
  rw [hshape, splitNl_append_cons_nl _ _ hem, splitNl_append_cons_nl _ _ hdm,
    splitNl_cons_nl]

theorem isPrefixOf_append_self (a b : Str) : List.isPrefixOf a (a ++ b) = true := by
  induction a with
  | nil => cases b <;> rfl
  | cons c a ih => simp [List.isPrefixOf, ih]

theorem eventMarker_not_dataLine (p : Str) :
    List.isPrefixOf eventMarker (dataMarker ++ p) = false := by
  rfl

theorem marker_not_nil_event : List.isPrefixOf eventMarker ([] : Str) = false := by
  rfl

theorem marker_not_nil_data : List.isPrefixOf dataMarker ([] : Str) = false := by
  rfl

theorem drop_eventMarker (t : Str) : (eventMarker ++ t).drop 7 = t := rfl

theorem drop_dataMarker (p : Str) : (dataMarker ++ p).drop 6 = p := rfl

theorem processLines_frame (parseJson : Str → Option AgentLogEvent)
    (acc : FrameAcc) (t p : Str) (rest : List Str)
    (ht : trimStr t ≠ []) (hp : p ≠ []) :
    processLines parseJson acc
        ((eventMarker ++ t) :: (dataMarker ++ p) :: [] :: rest)
      = (match parseJson p with
         | none => processLines parseJson ⟨[], []⟩ rest
         | some ev =>
            if isDoneEvent ev then ([ev], none)
            else (ev :: (processLines parseJson ⟨[], []⟩ rest).1,
                  (processLines parseJson ⟨[], []⟩ rest).2)) := by
  simp only [processLines, isPrefixOf_append_self, eventMarker_not_dataLine,
    marker_not_nil_event, marker_not_nil_data, drop_eventMarker,
    drop_dataMarker, if_true, Bool.false_eq_true, if_false]
  rw [if_pos ⟨trivial, ht, hp⟩]
  cases hv : parseJson p with
  | none => rfl
  | some ev =>
    by_cases hd : isDoneEvent ev = true
    · simp [hd]
    · simp [hd]

theorem runReads_single (parseJson : Str → Option AgentLogEvent)
    (buffer s : Str) :
    runReads parseJson false none buffer [ReadResult.chunk s]
      = (processChunk parseJson buffer s).2.1 := by
  by_cases h : (processChunk parseJson buffer s).2.2 = true
  · simp [runReads, h]
  · simp [runReads, h]

/-- Well-formedness of one frame descriptor (type text, payload):
newline-free type and payload, non-empty trimmed type, non-empty
payload. -/
def wfFrame (f : Str × Str) : Prop :=
  '\n' ∉ f.1 ∧ '\n' ∉ f.2 ∧ trimStr f.1 ≠ [] ∧ f.2 ≠ []

/-- The bytes of a sequence of whole frames delivered in one read. -/
def framesText : List (Str × Str) → Str
  | [] => []
  | f :: rest => mkFrame f.1 f.2 ++ framesText rest

/-- The completed lines those frames contribute to the newline split. -/
def frameLines : List (Str × Str) → List Str
  | [] => []
  | f :: rest =>
    (eventMarker ++ f.1) :: (dataMarker ++ f.2) :: [] :: frameLines rest

/-- The events the read loop emits for a sequence of whole frames,
together with whether it returned at a done event. -/
def frameEvents (parseJson : Str → Option AgentLogEvent) :
    List (Str × Str) → List AgentLogEvent × Bool
  | [] => ([], false)
  | f :: rest =>
    match parseJson f.2 with
    | none => frameEvents parseJson rest
    | some ev =>
      if isDoneEvent ev then ([ev], true)
      else
        let r := frameEvents parseJson rest
        (ev :: r.1, r.2)

theorem splitNl_framesText (fs : List (Str × Str))
    (hwf : ∀ f ∈ fs, wfFrame f) :
    splitNl (framesText fs) = frameLines fs ++ [[]] := by
  induction fs with
  | nil => rfl
  | cons f rest ih =>
    have hw := hwf f (List.mem_cons_self f rest)
    rw [framesText, splitNl_mkFrame_append f.1 f.2 _ hw.1 hw.2.1,
      ih (fun x hx => hwf x (List.mem_cons_of_mem f hx))]
    rfl

theorem processLines_frameLines (parseJson : Str → Option AgentLogEvent)
    (fs : List (Str × Str)) (hwf : ∀ f ∈ fs, wfFrame f) :
    processLines parseJson ⟨[], []⟩ (frameLines fs)
      = ((frameEvents parseJson fs).1,
         if (frameEvents parseJson fs).2 = true then none
         else some ⟨[], []⟩) := by
  induction fs with
  | nil => rfl
  | cons f rest ih =>
    have hw := hwf f (List.mem_cons_self f rest)
    rw [frameLines, processLines_frame parseJson _ f.1 f.2 _ hw.2.2.1 hw.2.2.2,
      ih (fun x hx => hwf x (List.mem_cons_of_mem f hx))]
    cases hv : parseJson f.2 with
    | none => simp [frameEvents, hv]
    | some ev =>
      by_cases hd : isDoneEvent ev = true
      · simp [frameEvents, hv, hd]
      · simp [frameEvents, hv, hd]

theorem frameEvents_append (parseJson : Str → Option AgentLogEvent)
    (g1 g2 : List (Str × Str)) :
    frameEvents parseJson (g1 ++ g2)
      = (if (frameEvents parseJson g1).2 = true
         then frameEvents parseJson g1
         else ((frameEvents parseJson g1).1 ++ (frameEvents parseJson g2).1,
               (frameEvents parseJson g2).2)) := by
  induction g1 with
  | nil => simp [frameEvents]
  | cons f rest ih =>
    rw [List.cons_append]
    cases hv : parseJson f.2 with
    | none =>
      simp only [frameEvents, hv]
      exact ih
    | some ev =>
      by_cases hd : isDoneEvent ev = true
      · simp [frameEvents, hv, hd]
      · simp only [frameEvents, hv, hd, Bool.false_eq_true, if_false]
        rw [ih]
        by_cases h2 : (frameEvents parseJson rest).2 = true
        · simp [h2]
        · simp [h2]

theorem runReads_chunk_cons (parseJson : Str → Option AgentLogEvent)
    (cancelAt : Option Nat) (buffer s : Str) (rest : List ReadResult) :
    runReads parseJson false cancelAt buffer (ReadResult.chunk s :: rest)
      = (if (processChunk parseJson buffer s).2.2 = true
         then (processChunk parseJson buffer s).2.1
         else (processChunk parseJson buffer s).2.1
           ++ runReads parseJson (decide (cancelAt = some 0))
             (cancelAtNext cancelAt) (processChunk parseJson buffer s).1 rest) := by
  simp [runReads]

/-- With an empty buffer and every read a concatenation of whole
well-formed frames, the loop emits exactly the events of the frame
sequence (truncated at the first done event): the buffer returns to
empty after each read, so only the per-read frame-accumulator reset
could lose data, and whole frames never need it. -/
theorem runReads_frameAligned (parseJson : Str → Option AgentLogEvent)
    (groups : List (List (Str × Str)))
    (hwf : ∀ g ∈ groups, ∀ f ∈ g, wfFrame f) :
    runReads parseJson false none []
        (groups.map (fun g => ReadResult.chunk (framesText g)))
      = (frameEvents parseJson groups.flatten).1 := by
  induction groups with
  | nil => rfl
  | cons g gs ih =>
    have hwg : ∀ f ∈ g, wfFrame f := hwf g (List.mem_cons_self g gs)
    have hpc : processChunk parseJson [] (framesText g)
        = ([], (frameEvents parseJson g).1, (frameEvents parseJson g).2) := by
      rw [processChunk_eq, List.nil_append, splitNl_framesText g hwg,
        List.dropLast_concat, List.getLastD_concat,
        processLines_frameLines parseJson g hwg]
      by_cases h2 : (frameEvents parseJson g).2 = true
      · simp [h2]
      · simp [h2]
    rw [List.map_cons, runReads_chunk_cons, hpc, List.flatten_cons,
      frameEvents_append]
    have hc1 : (decide ((none : Option Nat) = some 0)) = false := rfl
    have hc2 : cancelAtNext none = none := rfl
    by_cases h2 : (frameEvents parseJson g).2 = true
    · simp [h2]
    · have hrec := ih (fun x hx f hf => hwf x (List.mem_cons_of_mem g hx) f hf)
      simp only [h2, Bool.false_eq_true, if_false, hc1, hc2]
      rw [hrec]

end FrameLemmas

/-- C5 (amended): for every stream delivering a well-formed frame, then
a frame whose payload fails to parse, then a well-formed frame, with no
frame split across read chunks — the reads are any grouping of the
three whole frames into consecutive chunks, empty reads allowed —
exactly the two valid events are emitted in order; the malformed frame
is dropped silently (the accumulator is reset after the failed parse at
its blank line), producing no emitted event and no terminal error, and
the loop continues to the third frame. -/
theorem malformed_frame_resilience (parseJson : Str → Option AgentLogEvent)
    (t1 p1 t2 p2 t3 p3 : Str) (e1 e3 : AgentLogEvent)
    (ht1 : '\n' ∉ t1) (hp1 : '\n' ∉ p1) (ht2 : '\n' ∉ t2) (hp2 : '\n' ∉ p2)
    (ht3 : '\n' ∉ t3) (hp3 : '\n' ∉ p3)
    (htt1 : trimStr t1 ≠ []) (htt2 : trimStr t2 ≠ []) (htt3 : trimStr t3 ≠ [])
    (hpe1 : p1 ≠ []) (hpe2 : p2 ≠ []) (hpe3 : p3 ≠ [])
    (h1 : parseJson p1 = some e1) (h1d : isDoneEvent e1 = false)
    (h2 : parseJson p2 = none)
    (h3 : parseJson p3 = some e3)
    (groups : List (List (Str × Str)))
    (hg : groups.flatten = [(t1, p1), (t2, p2), (t3, p3)]) :
    runReads parseJson false none []
        (groups.map (fun g => ReadResult.chunk (framesText g)))
      = [e1, e3] := by
  have hwf : ∀ g ∈ groups, ∀ f ∈ g, wfFrame f := by
    intro g hgmem f hf
    have hmem : f ∈ groups.flatten := List.mem_flatten.mpr ⟨g, hgmem, hf⟩
    rw [hg] at hmem
    simp only [List.mem_cons, List.not_mem_nil, or_false] at hmem
    rcases hmem with rfl | rfl | rfl
    · exact ⟨ht1, hp1, htt1, hpe1⟩
    · exact ⟨ht2, hp2, htt2, hpe2⟩
    · exact ⟨ht3, hp3, htt3, hpe3⟩
  rw [runReads_frameAligned parseJson groups hwf, hg]
  by_cases hd3 : isDoneEvent e3 = true
  · simp [frameEvents, h1, h2, h3, h1d, hd3]
  · simp [frameEvents, h1, h2, h3, h1d, hd3]

/-- C5 witness: with the concrete parse oracle, the three frames
delivered across two reads — the valid log frame alone, then the
malformed frame together with the valid done frame — yield exactly the
log and done events. -/
theorem malformed_frame_resilience_witness :
    runReads demoParse false none []
        [ReadResult.chunk (framesText [("log".toList, "LOGPAYLOAD".toList)]),
         ReadResult.chunk (framesText
           [("log".toList, "notjson".toList),
            ("done".toList, "DONEPAYLOAD".toList)])]
      = [AgentLogEvent.log "building".toList none,
         AgentLogEvent.done "ok".toList none] := by
  have h := malformed_frame_resilience demoParse
    "log".toList "LOGPAYLOAD".toList "log".toList "notjson".toList
    "done".toList "DONEPAYLOAD".toList
    (AgentLogEvent.log "building".toList none)
    (AgentLogEvent.done "ok".toList none)
    (by decide) (by decide) (by decide) (by decide) (by decide) (by decide)
    (by decide) (by decide) (by decide) (by decide) (by decide) (by decide)
    (by decide) (by decide) (by decide) (by decide)
    [[("log".toList, "LOGPAYLOAD".toList)],
     [("log".toList, "notjson".toList), ("done".toList, "DONEPAYLOAD".toList)]]
    (by decide)
  exact h

/-- C5 counterexample: the claim quantifies over every stream, but when
the chunk boundary falls inside the first frame — its `event:` line in
one read, its `data:` line and blank line in the next — that valid
frame is lost (see the per-read accumulator reset) and only ONE of the
two valid events is emitted, not both. -/
theorem malformed_frame_chunking_counterexample :
    runReads demoParse false none []
        [ReadResult.chunk (eventMarker ++ "log".toList ++ ['\n']),
         ReadResult.chunk ((dataMarker ++ "LOGPAYLOAD".toList ++ ['\n', '\n'])
           ++ mkFrame "log".toList "notjson".toList
           ++ mkFrame "done".toList "DONEPAYLOAD".toList)]
      = [AgentLogEvent.done "ok".toList none]
    ∧ [AgentLogEvent.done "ok".toList none]
      ≠ [AgentLogEvent.log "building".toList none,
         AgentLogEvent.done "ok".toList none] := by
  decide

section Aggregator

/-- The chat roles of the agent page. -/
inductive ChatRole where
  | user
  | assistant
deriving DecidableEq

/-- One conversation-log entry of the agent page. -/
structure ChatMessage where
  role : ChatRole
  content : Str
  toolSummary : Option (List Str)
deriving DecidableEq

/-- The stream-related state of the agent page: the conversation log,
the transient build-log panel, the error indicator, the loading flag
and whether the stream subscription is still active
(`streamSubscription` non-null). -/
structure AgentPageState where
  messages : List ChatMessage
  logs : List Str
  error : Option Str
  loading : Bool
  subscriptionActive : Bool
deriving DecidableEq

/-- The `next` handler of the stream subscription in the agent page
(identical in `startSession` and `sendMessage`): a Log event appends to
the build-log panel; a Done event appends the final assistant message,
clears the loading flag and unsubscribes; an Error event sets the
error indicator and nothing else. -/
def onStreamEvent (st : AgentPageState) (ev : AgentLogEvent) : AgentPageState :=
  match ev with
  | .log m _ => { st with logs := st.logs ++ [m] }
  | .done r ts =>
      { st with
        messages := st.messages ++ [⟨ChatRole.assistant, r, ts⟩]
        loading := false
        subscriptionActive := false }
  | .error e => { st with error := some e }

/-- Delivery of the emitted events to the page handler, in order; once
the subscription has been unsubscribed no further event is delivered
(the RxJS unsubscribe contract). -/
def deliverEvents (st : AgentPageState) : List AgentLogEvent → AgentPageState
  | [] => st
  | ev :: rest =>
    if st.subscriptionActive then deliverEvents (onStreamEvent st ev) rest
    else st

theorem deliverEvents_inactive (st : AgentPageState)
    (evs : List AgentLogEvent) (h : st.subscriptionActive = false) :
    deliverEvents st evs = st := by
  cases evs with
  | nil => rfl
  | cons ev rest => simp [deliverEvents, h]

end Aggregator

/-- C9: an Error event only sets the visible error indicator — the
subscription stays active, the conversation log and build-log panel
are untouched, and the following events of the same subscription are
still delivered and processed; a Done event appends the one final
assistant message and unsubscribes, so nothing after the first Done is
processed; and an error-kind event is not done-kind, so the stream
reader does not complete the stream on it. -/
theorem error_event_nonterminal :
    (∀ (st : AgentPageState) (e : Str),
      onStreamEvent st (AgentLogEvent.error e) = { st with error := some e })
    ∧ (∀ (st : AgentPageState) (e : Str),
        (onStreamEvent st (AgentLogEvent.error e)).subscriptionActive
          = st.subscriptionActive
        ∧ (onStreamEvent st (AgentLogEvent.error e)).messages = st.messages
        ∧ (onStreamEvent st (AgentLogEvent.error e)).logs = st.logs)
    ∧ (∀ (st : AgentPageState) (e : Str) (rest : List AgentLogEvent),
        st.subscriptionActive = true →
        deliverEvents st (AgentLogEvent.error e :: rest)
          = deliverEvents { st with error := some e } rest)
    ∧ (∀ (st : AgentPageState) (r : Str) (ts : Option (List Str))
        (rest : List AgentLogEvent),
        st.subscriptionActive = true →
        deliverEvents st (AgentLogEvent.done r ts :: rest)
          = onStreamEvent st (AgentLogEvent.done r ts)
        ∧ (onStreamEvent st (AgentLogEvent.done r ts)).messages
          = st.messages ++ [⟨ChatRole.assistant, r, ts⟩]
        ∧ (onStreamEvent st (AgentLogEvent.done r ts)).subscriptionActive = false)
    ∧ (∀ e : Str, isDoneEvent (AgentLogEvent.error e) = false) := by
  refine ⟨?_, ?_, ?_, ?_, ?_⟩
  · intro st e
    rfl
  · intro st e
    exact ⟨rfl, rfl, rfl⟩
  · intro st e rest h
    simp [deliverEvents, h, onStreamEvent]
  · intro st r ts rest h
    refine ⟨?_, rfl, rfl⟩
    have h1 : deliverEvents st (AgentLogEvent.done r ts :: rest)
        = deliverEvents (onStreamEvent st (AgentLogEvent.done r ts)) rest := by
      simp [deliverEvents, h]
    rw [h1]
    exact deliverEvents_inactive _ _ rfl
  · intro e
    rfl

/-- C9 witness: from a live subscription, an Error event followed by a
Log event leaves the subscription active, records the error indicator
and still processes the Log event into the build-log panel. -/
theorem error_event_nonterminal_witness :
    deliverEvents ⟨[], [], none, true, true⟩
        (AgentLogEvent.error "boom".toList
          :: [AgentLogEvent.log "next".toList none])
      = ⟨[], ["next".toList], some "boom".toList, true, true⟩ := by
  have h := error_event_nonterminal.2.2.1 ⟨[], [], none, true, true⟩
    "boom".toList [AgentLogEvent.log "next".toList none] rfl
  rw [h]
  decide

end KodBro
